import Mathlib

/-!
Verification development for the `code_index` repository
(`code_indexer/{code_splitter, merkle_tree, hybrid_search, watcher}.py`).

The Python sources are shallowly embedded as executable Lean definitions:

* SHA-256 is replaced by an injective-by-construction numeric encoding
  (`strHash`, `fileHash`, `dirHash`): the development never relies on
  properties of the real digest beyond collision-freeness, and the
  directory-hash combiner mirrors the source exactly — it is a function of
  the *sorted list* of child hashes (`sorted(children_hashes)` in
  `compute_directory_hash`), so directory names do not enter the digest.
* The filesystem is a value of the inductive type `FS`; the order of a
  directory's entry list models the OS enumeration order used by
  `os.listdir`.
* The tiktoken token counter is an opaque external dependency and is
  modelled as an arbitrary function `tok : Nat → Nat → Nat` giving the
  token count of a byte span of the buffer.
* tree-sitter parse trees are values of the inductive type `PNode`.
-/

/-! ### Hash model (stands in for SHA-256 hex digests) -/

/-- Injective numeric stand-in for hashing a file's bytes: a base-1114112
fold over the characters with a leading sentinel digit. -/
def strHash (s : String) : Nat :=
  s.data.foldl (fun n c => n * 1114112 + c.toNat) 1

/-- Model of `compute_file_hash`: SHA-256 of the file bytes.  Tagged odd so
file hashes never collide with directory hashes or the empty sentinel. -/
def fileHash (content : String) : Nat := 2 * strHash content + 1

/-- The empty-string hash value `MerkleNode("")` used for freshly created
nodes and for the missing-side sentinel in `_compare_nodes`. -/
def emptyHash : Nat := 0

/-- Model of `compute_directory_hash`: digest of the concatenation of the
children's hashes *sorted* (`''.join(sorted(children_hashes))`).  The
combiner depends only on the sorted hash list — exactly as in the source,
names do not enter. -/
def dirHash (hs : List Nat) : Nat :=
  2 * ((hs.insertionSort (· ≤ ·)).foldr (fun h acc => Nat.pair h acc + 1) 0) + 2

/-! ### Filesystem model -/

/-- A snapshot of a directory subtree on disk.  `dir` holds the entries in
the order `os.listdir` enumerates them. -/
inductive FS where
  | file (content : String)
  | dir (entries : List (String × FS))
deriving Repr

/-! ### MerkleNode / MerkleTree model (`merkle_tree.py`) -/

/-- Model of `MerkleNode`: stored hash, file flag, and the (insertion
ordered) children dictionary. -/
inductive MNode where
  | mk (hash_value : Nat) (is_file : Bool) (children : List (String × MNode))
deriving Repr

def MNode.hash_value : MNode → Nat
  | .mk h _ _ => h

def MNode.is_file : MNode → Bool
  | .mk _ f _ => f

def MNode.children : MNode → List (String × MNode)
  | .mk _ _ cs => cs

/-- The `MerkleNode("")` sentinel: empty hash, not a file, no children. -/
def sentinel : MNode := .mk emptyHash false []

/-- Dictionary lookup on the children association list. -/
def assocGet (l : List (String × MNode)) (k : String) : Option MNode :=
  match l with
  | [] => none
  | (n, v) :: rest => if n = k then some v else assocGet rest k

/-- Dictionary write: replace in place if the key is present (Python dicts
keep the original position), otherwise append at the end. -/
def assocSet (l : List (String × MNode)) (k : String) (v : MNode) : List (String × MNode) :=
  match l with
  | [] => [(k, v)]
  | (n, w) :: rest => if n = k then (n, v) :: rest else (n, w) :: assocSet rest k v

/-- Model of `_build_node` / `build_tree`: files get their content hash,
directories get the directory hash of their children (built in listing
order). -/
def buildNode : FS → MNode
  | .file c => .mk (fileHash c) true []
  | .dir es =>
      let ch := buildChildren es
      .mk (dirHash (ch.map (fun p => p.2.hash_value))) false ch
where
  buildChildren : List (String × FS) → List (String × MNode)
    | [] => []
    | (n, t) :: rest => (n, buildNode t) :: buildChildren rest

/-- The tree position corresponding to a relative path (spec wording for
the walk in `get_node_hash`): descend through the children dictionaries. -/
def treePos (n : MNode) : List String → Option MNode
  | [] => some n
  | p :: ps =>
      match assocGet n.children p with
      | some c => treePos c ps
      | none => none

/-- The node reached by a relative path where a missing position is the
empty-hash sentinel (as in `_compare_nodes`' `children.get(child, MerkleNode(""))`). -/
def lookupSent (n : MNode) : List String → MNode
  | [] => n
  | p :: ps => lookupSent ((assocGet n.children p).getD sentinel) ps

/-- First phase of `update_file`: walk the path components, creating missing
intermediate nodes as `MerkleNode("")`, then overwrite the leaf's hash and
file flag (an existing node keeps its children dictionary). -/
def insertLeaf (node : MNode) : List String → Nat → MNode
  | [], _ => node
  | [f], h =>
      let old := (assocGet node.children f).getD sentinel
      .mk node.hash_value node.is_file
        (assocSet node.children f (.mk h true old.children))
  | p :: ps, h =>
      let old := (assocGet node.children p).getD sentinel
      .mk node.hash_value node.is_file
        (assocSet node.children p (insertLeaf old (ps) h))

/-- Model of `_update_parent_hashes`: descend along the directory components;
at each step move into the child *and then* recompute that child's hash from
its children's current hash values.  The starting node (the tree root) is
never recomputed, and a node's hash is recomputed before the deeper updates
below it happen — exactly the source's top-down order. -/
def updateParentHashes (node : MNode) : List String → MNode
  | [] => node
  | p :: ps =>
      match assocGet node.children p with
      | none => node
      | some child =>
          let child' := MNode.mk (dirHash (child.children.map (fun q => q.2.hash_value)))
            child.is_file child.children
          .mk node.hash_value node.is_file
            (assocSet node.children p (updateParentHashes child' ps))

/-- Model of `update_file` on an existing file: `path_parts` are the
components of the path relative to the root, `h` the fresh file hash. -/
def updateFileNode (root : MNode) (path_parts : List String) (h : Nat) : MNode :=
  updateParentHashes (insertLeaf root path_parts h) path_parts.dropLast

/-- Model of the walk in `get_node_hash` after the existence check:
descend through the children, `none` as soon as a component is missing,
else the stored hash of the final node. -/
def nodeHashWalk (root : MNode) : List String → Option Nat
  | [] => some root.hash_value
  | p :: ps =>
      match assocGet root.children p with
      | some c => nodeHashWalk c ps
      | none => none

/-- Model of `get_node_hash(file_path)`: the source first consults the
*filesystem* (`os.path.exists`) and returns `None` if the path is absent on
disk, before walking the stored tree. -/
def getNodeHash (fsExists : Bool) (root : MNode) (path_parts : List String) : Option Nat :=
  if fsExists = false then none
  else nodeHashWalk root path_parts

/-- Structural depth of a Merkle node, used to pre-compute sufficient fuel
for the `_compare_nodes` recursion (the recursion of the source always
terminates on finite trees; the fuel never runs out, see `getChanges`). -/
def mdepth : MNode → Nat
  | .mk _ _ cs => 1 + mdepthL cs
where
  mdepthL : List (String × MNode) → Nat
    | [] => 0
    | (_, c) :: rest => max (mdepth c) (mdepthL rest)

/-- Union of the two children name sets (`set(a) | set(b)`), realised as a
deterministic deduplicated list. -/
def unionNames (n1 n2 : MNode) : List String :=
  (n1.children.map (fun p => p.1) ++ n2.children.map (fun p => p.1)).dedup

/-- Model of `_compare_nodes`: prune equal hashes, record the path of a
differing node of `self` when it is a file, otherwise recurse into the
union of the child names with the empty-hash sentinel for a missing side.
`pre` accumulates the path components.  `fuel` only bounds the recursion
depth for Lean's termination checker. -/
def compareNodes : Nat → MNode → MNode → List String → List (List String)
  | 0, _, _, _ => []
  | fuel + 1, n1, n2, pre =>
      if n1.hash_value = n2.hash_value then []
      else if n1.is_file then [pre]
      else
        (unionNames n1 n2).flatMap (fun name =>
          compareNodes fuel ((assocGet n1.children name).getD sentinel)
            ((assocGet n2.children name).getD sentinel) (pre ++ [name]))

/-- Model of `get_changes`: compare the two roots (with ample fuel; the
source recursion always terminates because the pair of depths strictly
decreases). -/
def getChanges (a b : MNode) : List (List String) :=
  compareNodes (mdepth a + mdepth b) a b []

/-! ### Reordering of directory listings (for the determinism claim) -/

mutual
/-- Two filesystem snapshots have identical contents, the only difference
being the order in which each directory's entries are enumerated. -/
def FSReorder : FS → FS → Prop
  | .file c, .file c' => c = c'
  | .dir es, .dir es' => ∃ mid, FSPointwise es mid ∧ mid.Perm es'
  | _, _ => False

/-- Pointwise: same names in the same order, subtrees reordered. -/
def FSPointwise : List (String × FS) → List (String × FS) → Prop
  | [], [] => True
  | (n, a) :: l, (m, b) :: l' => n = m ∧ FSReorder a b ∧ FSPointwise l l'
  | _, _ => False
end

/-! ### Chunker model (`code_splitter.py`) -/

/-- Model of `Span`: a half-open byte interval of the source buffer.
(`stop` models the Python field `end`, which is a Lean keyword.) -/
structure Span where
  start : Nat
  stop : Nat
deriving Repr, DecidableEq

/-- Python `len(span) = end - start`. -/
def Span.size (s : Span) : Nat := s.stop - s.start

/-- Model of `ChunkMetadata`. -/
structure ChunkMetadata where
  start_line : Nat
  end_line : Nat
  language : String
  symbols : List String
  imports : List String
deriving Repr, DecidableEq

/-- A tree-sitter parse-tree node: node type, byte range and children (all
children, in order). -/
inductive PNode where
  | node (type : String) (startB : Nat) (endB : Nat) (children : List PNode)
deriving Repr

def PNode.type : PNode → String
  | .node t _ _ _ => t

def PNode.startB : PNode → Nat
  | .node _ s _ _ => s

def PNode.endB : PNode → Nat
  | .node _ _ e _ => e

def PNode.children : PNode → List PNode
  | .node _ _ _ cs => cs

/-- The `CodeSplitter` configuration fields. -/
structure SplitCfg where
  language : String
  target_chunk_tokens : Nat
  max_chunk_tokens : Nat
  enforce_max : Bool
  coalesce : Nat
deriving Repr

/-- `CodeSplitter(language)` defaults: target 300, max 1000, enforcement
off, coalesce 50. -/
def defaultCfg (language : String) : SplitCfg :=
  { language := language, target_chunk_tokens := 300, max_chunk_tokens := 1000,
    enforce_max := false, coalesce := 50 }

mutual
/-- Model of the recursive `chunk_node` closure of `chunk_tree` (Pass 1).
`tok s e` is the model of `token_counter.count_chunk(Span(s, e), source_code)`.
Raising `MaxChunkLengthExceededError` is modelled by `Except.error ()`. -/
def chunk_node (cfg : SplitCfg) (tok : Nat → Nat → Nat) : PNode → Except Unit (List Span)
  | .node _ s _ cs =>
      match chunkChildren cfg tok cs [] ⟨s, s⟩ with
      | .error e => .error e
      | .ok (chunks, current) =>
          if tok current.start current.stop > cfg.max_chunk_tokens ∧ cfg.enforce_max = true then
            .error ()
          else .ok (chunks ++ [current])

/-- The `for child in node_children` loop of `chunk_node`, with the emitted
chunks and the running `current_chunk` as accumulators. -/
def chunkChildren (cfg : SplitCfg) (tok : Nat → Nat → Nat) :
    List PNode → List Span → Span → Except Unit (List Span × Span)
  | [], acc, cur => .ok (acc, cur)
  | c :: rest, acc, cur =>
      let ctl := tok c.startB c.endB
      let cctl := ctl + tok cur.start cur.stop
      if ctl > cfg.target_chunk_tokens then
        if ctl > cfg.max_chunk_tokens ∧ cfg.enforce_max = true then .error ()
        else
          match chunk_node cfg tok c with
          | .error e => .error e
          | .ok sub => chunkChildren cfg tok rest (acc ++ [cur] ++ sub) ⟨c.endB, c.endB⟩
      else if cctl > cfg.target_chunk_tokens then
        if cctl > cfg.max_chunk_tokens ∧ cfg.enforce_max = true then .error ()
        else chunkChildren cfg tok rest (acc ++ [cur]) ⟨c.startB, c.endB⟩
      else chunkChildren cfg tok rest acc ⟨cur.start, c.endB⟩
end

/-- Pass 2's gap rewriting (`chunks[0].start = 0`; `prev.end = curr.start`;
`curr.end = len(source_code)`), for sequences of length at least two.
`a` is the start assigned to the current chunk. -/
def gapAux (a : Nat) : List Span → Nat → List Span
  | [], _ => []
  | [_], len => [⟨a, len⟩]
  | _ :: t :: rest, len => ⟨a, t.start⟩ :: gapAux t.start (t :: rest) len

def gapFill (l : List Span) (len : Nat) : List Span :=
  match l with
  | [] => []
  | s :: rest => gapAux 0 (s :: rest) len

/-- Pass 3 (coalescing): fold over the partitioned chunks maintaining the
output, the `aggregated_chunk` and its summed token length; append the
residual aggregate at the end if non-empty. -/
def coalescePass (cfg : SplitCfg) (tok : Nat → Nat → Nat) :
    List Span → List Span → Span → Nat → List Span
  | [], out, agg, _ => if agg.size > 0 then out ++ [agg] else out
  | k :: rest, out, agg, aggLen =>
      let t := tok k.start k.stop
      if t > cfg.target_chunk_tokens then
        coalescePass cfg tok rest (out ++ [agg, k]) ⟨k.stop, k.stop⟩ 0
      else if aggLen + t > cfg.target_chunk_tokens then
        coalescePass cfg tok rest (out ++ [agg]) ⟨k.start, k.stop⟩ t
      else
        let agg' : Span := ⟨agg.start, k.stop⟩
        let aggLen' := aggLen + t
        if aggLen' > cfg.coalesce then
          coalescePass cfg tok rest (out ++ [agg']) ⟨k.stop, k.stop⟩ 0
        else coalescePass cfg tok rest out agg' aggLen'

/-- Model of `split_and_keep_newline` (`re.split(b"(?<=\n)", s)`): split
after every newline; a trailing newline yields a trailing empty piece, and
the empty buffer yields one empty piece. -/
def splitKeepNewline : List Char → List (List Char)
  | [] => [[]]
  | c :: rest =>
      let r := splitKeepNewline rest
      if c = '\n' then [c] :: r
      else
        match r with
        | [] => [[c]]
        | h :: t => (c :: h) :: t

/-- The `enumerate(..., start=1)` loop of `get_line_number`: `done` counts
pieces already consumed, `total` the bytes consumed. -/
def lineLoop (index : Nat) : Nat → Nat → List (List Char) → Nat
  | _, done, [] => done
  | total, done, l :: rest =>
      let t := total + l.length
      if t > index then (done + 1) - 1
      else lineLoop index t (done + 1) rest

/-- Model of `get_line_number`. -/
def get_line_number (index : Nat) (source : List Char) : Nat :=
  lineLoop index 0 0 (splitKeepNewline source)

/-- The text of a node: the byte slice of the buffer, as in tree-sitter's
`node.text.decode("utf-8")`. -/
def textOf (source : List Char) (n : PNode) : String :=
  String.mk ((source.drop n.startB).take (n.endB - n.startB))

mutual
/-- Model of `_extract_symbols`: at a `function_definition` or
`class_definition` node take the first `identifier` child's text, and
recurse into every child. -/
def extract_symbols (source : List Char) : PNode → List String
  | .node ty _ _ cs =>
      (if ty = "function_definition" ∨ ty = "class_definition" then
        match cs.find? (fun c => c.type = "identifier") with
        | some c => [textOf source c]
        | none => []
      else []) ++ extractSymbolsL source cs

def extractSymbolsL (source : List Char) : List PNode → List String
  | [] => []
  | c :: rest => extract_symbols source c ++ extractSymbolsL source rest
end

mutual
/-- Model of `_extract_imports`: collect the text of `import_statement` and
`import_from_statement` nodes, pre-order. -/
def extract_imports (source : List Char) : PNode → List String
  | .node ty s e cs =>
      (if ty = "import_statement" ∨ ty = "import_from_statement" then
        [textOf source (.node ty s e cs)]
      else []) ++ extractImportsL source cs

def extractImportsL (source : List Char) : List PNode → List String
  | [] => []
  | c :: rest => extract_imports source c ++ extractImportsL source rest
end

mutual
/-- Model of `descendant_for_byte_range(start, end)`: descend into the first
child whose byte range covers the span, else stop at the current node. -/
def descendant (s e : Nat) : PNode → PNode
  | .node ty a b cs =>
      match descFind s e cs with
      | some d => d
      | none => .node ty a b cs

def descFind (s e : Nat) : List PNode → Option PNode
  | [] => none
  | c :: rest =>
      if c.startB ≤ s ∧ e ≤ c.endB then some (descendant s e c)
      else descFind s e rest
end

/-- Pass 4 (metadata decoration) for one span. -/
def decorate (cfg : SplitCfg) (source : List Char) (root : PNode) (c : Span) :
    Span × ChunkMetadata :=
  let n := descendant c.start c.stop root
  (c, { start_line := get_line_number c.start source
        end_line := get_line_number c.stop source
        language := cfg.language
        symbols := extract_symbols source n
        imports := extract_imports source n })

/-- Model of `chunk_tree`: Pass 1 (recursive split), empty-chunk filter, the
two early returns, Pass 2 (gap filling), Pass 3 (coalescing) and Pass 4
(metadata).  The buffer is `source`; token counting is the black box `tok`. -/
def chunk_tree (cfg : SplitCfg) (tok : Nat → Nat → Nat) (source : List Char)
    (root : PNode) : Except Unit (List (Span × ChunkMetadata)) :=
  match chunk_node cfg tok root with
  | .error e => .error e
  | .ok raw =>
      let chunks := raw.filter (fun c => c.size > 0)
      match chunks with
      | [] => .ok []
      | [c] =>
          .ok [(⟨0, c.size⟩,
            { start_line := 0, end_line := 1, language := cfg.language,
              symbols := [], imports := [] })]
      | _ :: _ :: _ =>
          let filled := gapFill chunks source.length
          let newChunks := coalescePass cfg tok filled [] ⟨0, 0⟩ 0
          .ok (newChunks.map (decorate cfg source root))

/-! ### Hybrid search model (`hybrid_search.py`) -/

/-- A point returned by one of the two ANN searches: its id and the payload
fields `search` reads (`path`, `hash`). -/
structure Hit where
  id : String
  path : String
  hashv : Option Nat
deriving Repr, DecidableEq

/-- One value of the `ranks` dictionary of `_combine_results`: the stored
result and the two ranks, `none` standing for `float("inf")`. -/
structure RankEntry where
  result : Hit
  dense_rank : Option Nat
  sparse_rank : Option Nat
deriving Repr, DecidableEq

/-- Association-list lookup mirroring `result.id in ranks`. -/
def ranksGet (tbl : List (String × RankEntry)) (k : String) : Option RankEntry :=
  match tbl with
  | [] => none
  | (n, v) :: rest => if n = k then some v else ranksGet rest k

/-- Association-list update-in-place (Python dict keeps positions). -/
def ranksSet (tbl : List (String × RankEntry)) (k : String) (f : RankEntry → RankEntry) :
    List (String × RankEntry) :=
  match tbl with
  | [] => []
  | (n, v) :: rest => if n = k then (n, f v) :: rest else (n, v) :: ranksSet rest k f

/-- The dense loop of `_combine_results` (`enumerate(dense_results, 1)`). -/
def addDense (tbl : List (String × RankEntry)) (r : Nat) : List Hit → List (String × RankEntry)
  | [] => tbl
  | h :: rest =>
      match ranksGet tbl h.id with
      | none => addDense (tbl ++ [(h.id, ⟨h, some r, none⟩)]) (r + 1) rest
      | some _ => addDense (ranksSet tbl h.id (fun e => { e with dense_rank := some r })) (r + 1) rest

/-- The sparse loop of `_combine_results` (`enumerate(sparse_results, 1)`). -/
def addSparse (tbl : List (String × RankEntry)) (r : Nat) : List Hit → List (String × RankEntry)
  | [] => tbl
  | h :: rest =>
      match ranksGet tbl h.id with
      | none => addSparse (tbl ++ [(h.id, ⟨h, none, some r⟩)]) (r + 1) rest
      | some _ => addSparse (ranksSet tbl h.id (fun e => { e with sparse_rank := some r })) (r + 1) rest

/-- One reciprocal-rank term `1 / (alpha + rank)`; a missing rank is
`float("inf")`, whose term is exactly `0.0`. -/
def rrfTerm (alpha : ℚ) : Option Nat → ℚ
  | some r => 1 / (alpha + r)
  | none => 0

/-- The RRF score of one `ranks` entry. -/
def rrfScore (alpha : ℚ) (e : RankEntry) : ℚ :=
  rrfTerm alpha e.dense_rank + rrfTerm alpha e.sparse_rank

/-- Model of `_combine_results`: build the rank table from both result
lists, score every entry, and sort descending by score
(`sorted(..., reverse=True)`). -/
def combine_results (dense sparse : List Hit) (alpha : ℚ := 60) : List (Hit × ℚ) :=
  let tbl := addSparse (addDense [] 1 dense) 1 sparse
  let scored := tbl.map (fun p => (p.2.result, rrfScore alpha p.2))
  scored.insertionSort (fun a b => b.2 ≤ a.2)

/-- Model of `search`: the two ANN requests are issued with `limit = k`; the
two response lists are parameters (the vector store is external).  The
fused, sorted list is returned in full — the source never truncates it to
`limit`. -/
def searchModel (_limit : Nat) (dense sparse : List Hit) : List (String × ℚ × Option Nat) :=
  (combine_results dense sparse).map (fun p => (p.1.path, p.2, p.1.hashv))

/-! ### Extension table and watcher model (`watcher.py`) -/

/-- Modelled from the spec: `constants.py` (the module holding
`EXTENSION_TO_TREE_SITTER_LANGUAGE`) is not part of the four source files;
the spec says a static table maps filename extensions such as `.py` to
grammar tags such as `python`, and only `python` is required. -/
def EXTENSION_TO_TREE_SITTER_LANGUAGE : List (String × String) := [(".py", "python")]

/-- Extension membership test used by `_should_process_file` and the
pipeline guards (`os.path.splitext(p)[1] in EXTENSION_TO_TREE_SITTER_LANGUAGE`).
`ext` is the extension of the path, computed externally by `os.path.splitext`. -/
def extRecognized (ext : String) : Bool :=
  EXTENSION_TO_TREE_SITTER_LANGUAGE.any (fun p => p.1 = ext)

/-- Model of `_should_process_file`. -/
def should_process_file (ext : String) : Bool := extRecognized ext

/-- The mutable state of `CodeIndexEventHandler`: the pending-update set
(as a deduplicated list) and `_debounce_timer` (`None` until the first
flush).  Times are rationals (seconds, `time.time()`). -/
structure WatcherState where
  pending : List String
  timer : Option ℚ
deriving Repr, DecidableEq

def initialWatcherState : WatcherState := { pending := [], timer := none }

/-- `_debounce_delay = 1.0`. -/
def debounce_delay : ℚ := 1

/-- Set-insert into the pending set. -/
def pendingAdd (l : List String) (p : String) : List String :=
  if p ∈ l then l else l ++ [p]

/-- Model of `_schedule_update` at wall-clock time `now`: add the path, and
if no timer is active or the delay has elapsed since the last flush, run
`_process_updates` (which invokes `update_index` once per pending path and
clears the set) and record the flush time.  Returns the new state and the
list of paths passed to `update_index` by this call. -/
def schedule_update (st : WatcherState) (path : String) (now : ℚ) :
    WatcherState × List String :=
  let pending := pendingAdd st.pending path
  match st.timer with
  | none => ({ pending := [], timer := some now }, pending)
  | some t =>
      if now - t ≥ debounce_delay then ({ pending := [], timer := some now }, pending)
      else ({ pending := pending, timer := st.timer }, [])

/-- Model of `on_modified` for a non-directory event: filter by extension,
then schedule.  `ext` is the event path's extension. -/
def on_modified (st : WatcherState) (path ext : String) (now : ℚ) :
    WatcherState × List String :=
  if should_process_file ext then schedule_update st path now
  else (st, [])

/-- Run a sequence of modify events (time, path, ext), accumulating every
`update_index` invocation. -/
def runModifyEvents (st : WatcherState) : List (ℚ × String × String) →
    WatcherState × List String
  | [] => (st, [])
  | (now, path, ext) :: rest =>
      let (st', calls) := on_modified st path ext now
      let (st'', calls') := runModifyEvents st' rest
      (st'', calls ++ calls')

/-! ### Incremental index update model (`update_index` of `hybrid_search.py`) -/

/-- A vector-store point as `update_index` writes it. -/
structure StorePoint where
  id : String
  path : String
  hashv : Option Nat
  chunk_text : String
deriving Repr, DecidableEq

/-- The state `update_index` mutates: the owned Merkle tree and the external
vector store (a list of points). -/
structure IndexState where
  tree : MNode
  store : List StorePoint
deriving Repr

/-- `client.delete` with the payload filter `path == relative_path`. -/
def deleteByPath (store : List StorePoint) (rel : String) : List StorePoint :=
  store.filter (fun pt => pt.path ≠ rel)

/-- `client.upsert`: insert-or-replace by point id. -/
def upsertPoints (store : List StorePoint) (pts : List StorePoint) : List StorePoint :=
  store.filter (fun pt => pts.all (fun q => q.id ≠ pt.id)) ++ pts

/-- Model of `update_index(file_path)`.  Parameters: whether the path exists
on disk, its extension, its components relative to the root, its relative
path string, the file's current content, and the chunker call
`split_text_with_metadata` (which may raise).  The result pairs the final
state with `some ()` when the call raises.  The order of effects mirrors
the source: the Merkle tree is updated *before* chunking, and the store
delete and upsert happen only after chunking succeeded. -/
def update_index (st : IndexState) (fsExists : Bool) (ext : String)
    (parts : List String) (rel : String) (content : String)
    (split : String → Except Unit (List (String × ChunkMetadata))) :
    IndexState × Option Unit :=
  if fsExists = false then (st, none)
  else if extRecognized ext = false then (st, none)
  else
    let tree' := updateFileNode st.tree parts (fileHash content)
    match split content with
    | .error _ => ({ st with tree := tree' }, some ())
    | .ok chunks =>
        let store1 := deleteByPath st.store rel
        let hashPayload := getNodeHash true tree' parts
        let pts := chunks.enum.map (fun q =>
          { id := rel ++ "_" ++ toString q.1, path := rel,
            hashv := hashPayload, chunk_text := q.2.1 : StorePoint })
        let store2 := if pts.isEmpty then store1 else upsertPoints store1 pts
        ({ tree := tree', store := store2 }, none)

/-! ### Span chains and tilings (for the partition property) -/

/-- `chainB a l b`: the spans of `l` are well formed (`start ≤ stop`), lie
in order between `a` and `b`, and never overlap (each span starts at or
after the previous one's stop). -/
def chainB (a : Nat) : List Span → Nat → Bool
  | [], b => decide (a ≤ b)
  | s :: rest, b => decide (a ≤ s.start) && decide (s.start ≤ s.stop) && chainB s.stop rest b

/-- `tiles a l b`: the spans of `l` partition `[a, b)` exactly — each span
starts where the previous one stopped, the first starts at `a`, the last
stops at `b` (empty spans are allowed and contribute nothing). -/
def tiles (a : Nat) : List Span → Nat → Bool
  | [], b => decide (a = b)
  | s :: rest, b => decide (s.start = a) && decide (a ≤ s.stop) && tiles s.stop rest b

/-! ### Well-formed parse trees and the Pass 1 invariant -/

mutual
/-- Well-formedness of a tree-sitter node: non-reversed byte range, children
in order, non-overlapping, inside the parent's range (tree-sitter guarantees
all of this for real parse trees). -/
def wfNode : PNode → Bool
  | .node _ s e cs => decide (s ≤ e) && wfChildren s e cs

/-- Children starting at or after `lo`, ending by `hi`, in order. -/
def wfChildren : Nat → Nat → List PNode → Bool
  | _, _, [] => true
  | lo, hi, c :: rest =>
      decide (lo ≤ c.startB) && decide (c.endB ≤ hi) && wfNode c && wfChildren c.endB hi rest
end

/-! ### Characterisation of the RRF rank table -/

/-- Spec-side definition: the rank (starting from `r`) of the first hit
with the given id in a result list, `none` if the id does not occur
("unseen side = infinity"). -/
def rankOf (r : Nat) : List Hit → String → Option Nat
  | [], _ => none
  | h :: rest, i => if h.id = i then some r else rankOf (r + 1) rest i

/-- The table produced by the dense loop when every id is fresh. -/
def denseEntries (r : Nat) : List Hit → List (String × RankEntry)
  | [] => []
  | h :: rest => (h.id, ⟨h, some r, none⟩) :: denseEntries (r + 1) rest

/-- The effect of the sparse loop on the entries already present. -/
def sparseUpd (s : List Hit) (r : Nat) (tbl : List (String × RankEntry)) :
    List (String × RankEntry) :=
  tbl.map (fun p =>
    match rankOf r s p.1 with
    | some rk => (p.1, { p.2 with sparse_rank := some rk })
    | none => p)

/-- The entries the sparse loop appends for ids absent from the table. -/
def sparseNew (tbl : List (String × RankEntry)) : Nat → List Hit → List (String × RankEntry)
  | _, [] => []
  | r, h :: rest =>
      if (ranksGet tbl h.id).isSome then sparseNew tbl (r + 1) rest
      else (h.id, ⟨h, none, some r⟩) :: sparseNew tbl (r + 1) rest

/-! ### Concrete fixtures -/

/-- A simple concrete token counter (one token per byte); the chunker is
parametric in the counter, and on the fixtures below every relevant span
is far below the default target of 300 tokens, as it would be under the
real tokenizer. -/
def lenTok (s e : Nat) : Nat := e - s

/-- The buffer of §8 scenario 3: `import os\nimport sys\n` (21 bytes). -/
def importSrc : List Char := "import os\nimport sys\n".data

/-- The tree-sitter parse tree of `importSrc`: two `import_statement`
nodes; the newline tokens are hidden and belong to no child, so the last
child ends at byte 20 of the 21-byte buffer. -/
def importTree : PNode :=
  .node "module" 0 21
    [ .node "import_statement" 0 9
        [ .node "import" 0 6 [], .node "dotted_name" 7 9 [.node "identifier" 7 9 []] ],
      .node "import_statement" 10 20
        [ .node "import" 10 16 [], .node "dotted_name" 17 20 [.node "identifier" 17 20 []] ] ]

/-- Enforcing configuration with a tiny budget: target 3, maximum 5. -/
def cfgC5 : SplitCfg :=
  { language := "python", target_chunk_tokens := 3, max_chunk_tokens := 5,
    enforce_max := true, coalesce := 50 }

/-- A 103-byte buffer whose parse tree has two tiny statements separated by
a 98-byte gap of blank content belonging to no child. -/
def srcC5 : List Char := List.replicate 103 'x'

def treeC5 : PNode := .node "module" 0 103 [.node "a" 0 2 [], .node "b" 100 102 []]

/-- Non-enforcing configuration with target 3, for the partition witness. -/
def cfgC1 : SplitCfg :=
  { language := "python", target_chunk_tokens := 3, max_chunk_tokens := 1000,
    enforce_max := false, coalesce := 50 }

def srcC1 : List Char := "abcdef".data

def treeC1 : PNode := .node "module" 0 6 [.node "a" 0 2 [], .node "b" 3 5 []]

/-- A root directory holding one file `f.py` with contents `a`. -/
def fsA : FS := .dir [("f.py", .file "a")]

/-- The same directory after mutating `f.py` to contents `b`. -/
def fsB : FS := .dir [("f.py", .file "b")]

/-- Two listings of the same directory contents in opposite OS enumeration
order. -/
def fsOrd1 : FS := .dir [("a", .file "x"), ("b", .file "y")]

def fsOrd2 : FS := .dir [("b", .file "y"), ("a", .file "x")]

/-- Decidable equality for `Except` results (component-wise). -/
instance exceptDecEq {ε α : Type} [DecidableEq ε] [DecidableEq α] :
    DecidableEq (Except ε α) := fun x y =>
  match x, y with
  | .ok a, .ok b =>
      if h : a = b then isTrue (by rw [h])
      else isFalse (by intro hc; injection hc; contradiction)
  | .error a, .error b =>
      if h : a = b then isTrue (by rw [h])
      else isFalse (by intro hc; injection hc; contradiction)
  | .ok _, .error _ => isFalse (by intro hc; exact Except.noConfusion hc)
  | .error _, .ok _ => isFalse (by intro hc; exact Except.noConfusion hc)

/-- The metadata attached to the sole chunk by the one-chunk early return. -/
def mdSole : ChunkMetadata :=
  { start_line := 0, end_line := 1, language := "python", symbols := [], imports := [] }

/-- The chunks `chunk_tree` produces on the `abcdef` fixture. -/
def outC1 : List (Span × ChunkMetadata) :=
  [(⟨0, 3⟩, { start_line := 0, end_line := 0, language := "python", symbols := [], imports := [] }),
   (⟨3, 6⟩, { start_line := 0, end_line := 1, language := "python", symbols := [], imports := [] })]

/-- A chunker that always raises, for the C10 witness. -/
def failSplit : String → Except Unit (List (String × ChunkMetadata)) := fun _ => .error ()

/-- The index state of the C10 witness: one file, one stored point. -/
def stC10 : IndexState :=
  { tree := buildNode fsA,
    store := [{ id := "f.py_0", path := "f.py", hashv := some (fileHash "a"), chunk_text := "a" }] }

/-- Sorting a permuted hash list gives the same sorted list, hence the same
directory hash. -/
theorem dirHash_perm {l l' : List Nat} (h : l.Perm l') : dirHash l = dirHash l' := by
  unfold dirHash
  have hsort : l.insertionSort (· ≤ ·) = l'.insertionSort (· ≤ ·) := by
    refine List.eq_of_perm_of_sorted ?_ (List.sorted_insertionSort _ l) (List.sorted_insertionSort _ l')
    exact ((List.perm_insertionSort _ l).trans h).trans (List.perm_insertionSort _ l').symm
  rw [hsort]

/-- Permuted entry lists give permuted child-hash lists. -/
theorem fsPerm_hashes {es es' : List (String × FS)} (h : es.Perm es') :
    ((buildNode.buildChildren es).map (fun p => p.2.hash_value)).Perm
      ((buildNode.buildChildren es').map (fun p => p.2.hash_value)) := by
  have hb : ∀ l : List (String × FS),
      (buildNode.buildChildren l).map (fun p => p.2.hash_value)
        = l.map (fun p => (buildNode p.2).hash_value) := by
    intro l
    induction l with
    | nil => rfl
    | cons x rest ih => cases x; simp only [buildNode.buildChildren, List.map]; rw [ih]
  rw [hb, hb]
  exact h.map _

mutual
/-- Reordered snapshots hash identically: the directory hash sorts the child
hashes, so the enumeration order cancels out. -/
theorem fsReorder_hash : ∀ {t t' : FS}, FSReorder t t' →
    (buildNode t).hash_value = (buildNode t').hash_value
  | .file _, .file _, h => by
      rw [show FSReorder _ _ = _ from rfl] at h; subst h; rfl
  | .dir es, .dir es', h => by
      obtain ⟨mid, hpw, hperm⟩ := h
      show dirHash ((buildNode.buildChildren es).map _) = dirHash ((buildNode.buildChildren es').map _)
      exact dirHash_perm ((fsPointwise_hashes hpw) ▸ (fsPerm_hashes hperm))
  | .file _, .dir _, h => absurd h (by rw [show FSReorder _ _ = _ from rfl]; exact not_false)
  | .dir _, .file _, h => absurd h (by rw [show FSReorder _ _ = _ from rfl]; exact not_false)

/-- Pointwise-reordered entry lists give equal child-hash lists. -/
theorem fsPointwise_hashes : ∀ {es mid : List (String × FS)}, FSPointwise es mid →
    (buildNode.buildChildren es).map (fun p => p.2.hash_value)
      = (buildNode.buildChildren mid).map (fun p => p.2.hash_value)
  | [], [], _ => rfl
  | (n, a) :: l, (m, b) :: l', h => by
      obtain ⟨hn, hr, hrest⟩ := h
      show (buildNode a).hash_value :: _ = (buildNode b).hash_value :: _
      rw [fsReorder_hash hr, fsPointwise_hashes hrest]
  | [], (_, _) :: _, h => absurd h not_false
  | (_, _) :: _, [], h => absurd h not_false
end

theorem chainB_mono_left {a a' b : Nat} {l : List Span} (h : chainB a l b = true)
    (ha : a' ≤ a) : chainB a' l b = true := by
  cases l with
  | nil => simp only [chainB, decide_eq_true_eq] at h ⊢; omega
  | cons s rest =>
      simp only [chainB, Bool.and_eq_true, decide_eq_true_eq] at h ⊢
      exact ⟨⟨by omega, h.1.2⟩, h.2⟩

theorem chainB_mono_right {a b b' : Nat} {l : List Span} (h : chainB a l b = true)
    (hb : b ≤ b') : chainB a l b' = true := by
  induction l generalizing a with
  | nil => simp only [chainB, decide_eq_true_eq] at h ⊢; omega
  | cons s rest ih =>
      simp only [chainB, Bool.and_eq_true, decide_eq_true_eq] at h ⊢
      exact ⟨h.1, ih h.2⟩

theorem chainB_append {a m b : Nat} {l1 l2 : List Span} (h1 : chainB a l1 m = true)
    (h2 : chainB m l2 b = true) : chainB a (l1 ++ l2) b = true := by
  induction l1 generalizing a with
  | nil =>
      simp only [chainB, decide_eq_true_eq] at h1
      exact chainB_mono_left h2 h1
  | cons s rest ih =>
      simp only [chainB, Bool.and_eq_true, decide_eq_true_eq] at h1 ⊢
      exact ⟨h1.1, ih h1.2⟩

theorem chainB_split {a b : Nat} {l1 l2 : List Span} (h : chainB a (l1 ++ l2) b = true) :
    ∃ m, chainB a l1 m = true ∧ chainB m l2 b = true := by
  induction l1 generalizing a with
  | nil =>
      exact ⟨a, by simp [chainB], h⟩
  | cons s rest ih =>
      simp only [List.cons_append, chainB, Bool.and_eq_true, decide_eq_true_eq] at h
      obtain ⟨m, hm1, hm2⟩ := ih h.2
      exact ⟨m, by simp only [chainB, Bool.and_eq_true, decide_eq_true_eq]; exact ⟨h.1, hm1⟩, hm2⟩

/-- Filtering out empty spans preserves a chain. -/
theorem chainB_filter {a b : Nat} {l : List Span} (h : chainB a l b = true) :
    chainB a (l.filter (fun c => c.size > 0)) b = true := by
  induction l generalizing a with
  | nil => exact h
  | cons s rest ih =>
      simp only [chainB, Bool.and_eq_true, decide_eq_true_eq] at h
      by_cases hs : s.size > 0
      · rw [List.filter_cons_of_pos (by simpa using hs)]
        simp only [chainB, Bool.and_eq_true, decide_eq_true_eq]
        exact ⟨⟨h.1.1, h.1.2⟩, ih h.2⟩
      · rw [List.filter_cons_of_neg (by simpa using hs)]
        have hss : s.stop ≤ s.start := by
          simp only [Span.size, gt_iff_lt, not_lt, Nat.le_zero, Nat.sub_eq_zero_iff_le] at hs
          exact hs
        exact chainB_mono_left (ih h.2) (by omega)

theorem tiles_append {a m b : Nat} {l1 l2 : List Span} (h1 : tiles a l1 m = true)
    (h2 : tiles m l2 b = true) : tiles a (l1 ++ l2) b = true := by
  induction l1 generalizing a with
  | nil =>
      simp only [tiles, decide_eq_true_eq] at h1
      subst h1; exact h2
  | cons s rest ih =>
      simp only [tiles, Bool.and_eq_true, decide_eq_true_eq] at h1 ⊢
      exact ⟨h1.1, ih h1.2⟩

theorem tiles_split {a b : Nat} {l1 l2 : List Span} (h : tiles a (l1 ++ l2) b = true) :
    ∃ m, tiles a l1 m = true ∧ tiles m l2 b = true := by
  induction l1 generalizing a with
  | nil => exact ⟨a, by simp [tiles], h⟩
  | cons s rest ih =>
      simp only [List.cons_append, tiles, Bool.and_eq_true, decide_eq_true_eq] at h
      obtain ⟨m, hm1, hm2⟩ := ih h.2
      exact ⟨m, by simp only [tiles, Bool.and_eq_true, decide_eq_true_eq]; exact ⟨h.1, hm1⟩, hm2⟩

/-- Filtering out empty spans preserves an exact tiling. -/
theorem tiles_filter {a b : Nat} {l : List Span} (h : tiles a l b = true) :
    tiles a (l.filter (fun c => c.size > 0)) b = true := by
  induction l generalizing a with
  | nil => exact h
  | cons s rest ih =>
      simp only [tiles, Bool.and_eq_true, decide_eq_true_eq] at h
      by_cases hs : s.size > 0
      · rw [List.filter_cons_of_pos (by simpa using hs)]
        simp only [tiles, Bool.and_eq_true, decide_eq_true_eq]
        exact ⟨⟨h.1.1, h.1.2⟩, ih h.2⟩
      · rw [List.filter_cons_of_neg (by simpa using hs)]
        have hss : s.stop ≤ s.start := by
          simp only [Span.size, gt_iff_lt, not_lt, Nat.le_zero, Nat.sub_eq_zero_iff_le] at hs
          exact hs
        have hsa : s.stop = a := by omega
        exact hsa ▸ ih h.2

theorem wfNode_le {c : PNode} (h : wfNode c = true) : c.startB ≤ c.endB := by
  cases c with
  | node ty s e cs =>
      simp only [wfNode, Bool.and_eq_true, decide_eq_true_eq] at h
      exact h.1

mutual
/-- Pass 1 invariant, node form: on a well-formed node, a successful
`chunk_node` emits a chain of spans between the node's byte bounds. -/
theorem chunk_node_chain (cfg : SplitCfg) (tok : Nat → Nat → Nat) :
    ∀ (n : PNode), wfNode n = true →
      ∀ l, chunk_node cfg tok n = .ok l → chainB n.startB l n.endB = true
  | .node ty s e cs, hwf, l, hok => by
      simp only [wfNode, Bool.and_eq_true, decide_eq_true_eq] at hwf
      rw [chunk_node] at hok
      rcases hcc : chunkChildren cfg tok cs [] ⟨s, s⟩ with _ | ⟨chunks, current⟩
      · rw [hcc] at hok; exact absurd hok (by simp)
      · rw [hcc] at hok
        have hinv := chunkChildren_chain cfg tok cs [] ⟨s, s⟩ s e chunks current
          (by exact hwf.2)
          (by simp [chainB, decide_eq_true_eq])
          hwf.1 hcc
        split at hok
        · exact absurd hok (by simp)
        · rename_i chunks2 current2 heq
          injection heq with heq2
          injection heq2 with ha hb
          subst ha; subst hb
          split at hok
          · exact absurd hok (by simp)
          · have hl : l = chunks ++ [current] := by
              injection hok with h; exact h.symm
            subst hl
            exact chainB_mono_right hinv.1 hinv.2

/-- Pass 1 invariant, loop form: the `for child` loop of `chunk_node`
extends a chain of emitted chunks plus the running current chunk. -/
theorem chunkChildren_chain (cfg : SplitCfg) (tok : Nat → Nat → Nat) :
    ∀ (cs : List PNode) (acc : List Span) (cur : Span) (lo hi : Nat)
      (acc' : List Span) (cur' : Span),
      wfChildren cur.stop hi cs = true →
      chainB lo (acc ++ [cur]) cur.stop = true →
      cur.stop ≤ hi →
      chunkChildren cfg tok cs acc cur = .ok (acc', cur') →
      chainB lo (acc' ++ [cur']) cur'.stop = true ∧ cur'.stop ≤ hi
  | [], acc, cur, lo, hi, acc', cur', _, hchain, hhi, hok => by
      rw [chunkChildren] at hok
      injection hok with h
      injection h with h1 h2
      subst h1; subst h2
      exact ⟨hchain, hhi⟩
  | c :: rest, acc, cur, lo, hi, acc', cur', hwf, hchain, hhi, hok => by
      simp only [wfChildren, Bool.and_eq_true, decide_eq_true_eq] at hwf
      obtain ⟨⟨⟨hlo, hchi⟩, hwfc⟩, hwfrest⟩ := hwf
      have hce : c.startB ≤ c.endB := wfNode_le hwfc
      rw [chunkChildren] at hok
      split at hok
      · -- child alone exceeds the target
        split at hok
        · exact absurd hok (by simp)
        · rcases hsub : chunk_node cfg tok c with _ | sub
          · rw [hsub] at hok; exact absurd hok (by simp)
          · rw [hsub] at hok
            have hsubchain := chunk_node_chain cfg tok c hwfc sub hsub
            refine chunkChildren_chain cfg tok rest (acc ++ [cur] ++ sub)
              ⟨c.endB, c.endB⟩ lo hi acc' cur' hwfrest ?_ hchi hok
            have h1 : chainB lo (acc ++ [cur]) c.startB = true :=
              chainB_mono_right hchain hlo
            have h2 : chainB lo (acc ++ [cur] ++ sub) c.endB = true :=
              chainB_append h1 hsubchain
            refine chainB_append h2 ?_
            simp [chainB, decide_eq_true_eq]
      · split at hok
        · -- combined chunk exceeds the target: emit current, restart at child
          split at hok
          · exact absurd hok (by simp)
          · refine chunkChildren_chain cfg tok rest (acc ++ [cur])
              ⟨c.startB, c.endB⟩ lo hi acc' cur' hwfrest ?_ hchi hok
            refine chainB_append hchain ?_
            simp only [chainB, Bool.and_eq_true, decide_eq_true_eq]
            exact ⟨⟨hlo, hce⟩, by simp [chainB, decide_eq_true_eq]⟩
        · -- extend the current chunk over the child
          refine chunkChildren_chain cfg tok rest acc
            ⟨cur.start, c.endB⟩ lo hi acc' cur' hwfrest ?_ hchi hok
          obtain ⟨m, hm1, hm2⟩ := chainB_split hchain
          simp only [chainB, Bool.and_eq_true, decide_eq_true_eq] at hm2
          refine chainB_append hm1 ?_
          simp only [chainB, Bool.and_eq_true, decide_eq_true_eq]
          exact ⟨⟨hm2.1.1, by omega⟩, by simp [chainB, decide_eq_true_eq]⟩
end

/-! ### Small structural lemmas for `tiles` -/

theorem tiles_nil_intro {a b : Nat} (h : a = b) : tiles a ([] : List Span) b = true := by
  simp [tiles, h]

theorem tiles_cons_intro {a b : Nat} {s : Span} {rest : List Span}
    (h1 : s.start = a) (h2 : a ≤ s.stop) (h3 : tiles s.stop rest b = true) :
    tiles a (s :: rest) b = true := by
  simp only [tiles, Bool.and_eq_true, decide_eq_true_eq]
  exact ⟨⟨h1, h2⟩, h3⟩

theorem tiles_nil_elim {a b : Nat} (h : tiles a ([] : List Span) b = true) : a = b := by
  simpa [tiles] using h

theorem tiles_cons_elim {a b : Nat} {s : Span} {rest : List Span}
    (h : tiles a (s :: rest) b = true) :
    s.start = a ∧ a ≤ s.stop ∧ tiles s.stop rest b = true := by
  simp only [tiles, Bool.and_eq_true, decide_eq_true_eq] at h
  exact ⟨h.1.1, h.1.2, h.2⟩

/-- Replacing the lower reference of a chain by the head's own start keeps
it a chain. -/
theorem chainB_head_tight {x b : Nat} {t : Span} {rest : List Span}
    (h : chainB x (t :: rest) b = true) : chainB t.start (t :: rest) b = true := by
  simp only [chainB, Bool.and_eq_true, decide_eq_true_eq] at h ⊢
  exact ⟨⟨le_refl _, h.1.2⟩, h.2⟩

theorem chainB_cons_elim {a b : Nat} {s : Span} {rest : List Span}
    (h : chainB a (s :: rest) b = true) :
    a ≤ s.start ∧ s.start ≤ s.stop ∧ chainB s.stop rest b = true := by
  simp only [chainB, Bool.and_eq_true, decide_eq_true_eq] at h
  exact ⟨h.1.1, h.1.2, h.2⟩

theorem chainB_nil_elim {a b : Nat} (h : chainB a ([] : List Span) b = true) : a ≤ b := by
  simpa [chainB] using h

/-- Pass 2 produces an exact tiling: rewriting every chunk's stop to the
next chunk's start (and the last to the buffer length) tiles `[a, len)`
whenever the input spans form a chain up to `len`. -/
theorem gapAux_tiles : ∀ (l : List Span) (a len : Nat), l ≠ [] →
    chainB a l len = true → tiles a (gapAux a l len) len = true
  | [], _, _, hne, _ => absurd rfl hne
  | [s], a, len, _, hch => by
      obtain ⟨has, hse, hrest⟩ := chainB_cons_elim hch
      have hsl : s.stop ≤ len := chainB_nil_elim hrest
      rw [gapAux]
      exact tiles_cons_intro rfl (by dsimp only; omega) (tiles_nil_intro rfl)
  | s :: t :: rest, a, len, _, hch => by
      obtain ⟨has, hse, hch2⟩ := chainB_cons_elim hch
      have hst : s.stop ≤ t.start := (chainB_cons_elim hch2).1
      rw [gapAux]
      refine tiles_cons_intro rfl (by dsimp only; omega) ?_
      exact gapAux_tiles (t :: rest) t.start len (by simp) (chainB_head_tight hch2)

theorem gapFill_tiles {l : List Span} {len : Nat} (hne : l ≠ [])
    (hch : chainB 0 l len = true) : tiles 0 (gapFill l len) len = true := by
  cases l with
  | nil => exact absurd rfl hne
  | cons s rest => exact gapAux_tiles (s :: rest) 0 len (by simp) hch

/-- Pass 3 preserves the tiling: the coalescing fold keeps the emitted
output plus the aggregate an exact tiling of the consumed prefix, so the
final output (with its possible empty residual spans filtered away) tiles
the whole interval. -/
theorem coalescePass_tiles (cfg : SplitCfg) (tok : Nat → Nat → Nat) :
    ∀ (input out : List Span) (agg : Span) (aggLen len : Nat),
      tiles 0 (out ++ [agg]) agg.stop = true →
      tiles agg.stop input len = true →
      tiles 0 ((coalescePass cfg tok input out agg aggLen).filter (fun c => c.size > 0)) len
        = true
  | [], out, agg, aggLen, len, hout, hin => by
      have hlen : agg.stop = len := tiles_nil_elim hin
      rw [coalescePass]
      split
      · exact tiles_filter (hlen ▸ hout)
      · rename_i hempty
        obtain ⟨m, hm1, hm2⟩ := @tiles_split _ _ out [agg] hout
        obtain ⟨hstart, hle, hrest⟩ := tiles_cons_elim hm2
        simp only [Span.size, gt_iff_lt, not_lt, Nat.le_zero, Nat.sub_eq_zero_iff_le] at hempty
        have hm : m = len := by omega
        exact tiles_filter (hm ▸ hm1)
  | k :: rest, out, agg, aggLen, len, hout, hin => by
      obtain ⟨hks, hke, hin2⟩ := tiles_cons_elim hin
      rw [coalescePass]
      dsimp only
      split
      · -- the chunk alone exceeds the target
        refine coalescePass_tiles cfg tok rest (out ++ [agg, k]) ⟨k.stop, k.stop⟩ 0 len ?_ hin2
        have h1 : tiles agg.stop [k, ⟨k.stop, k.stop⟩] k.stop = true :=
          tiles_cons_intro hks hke
            (tiles_cons_intro rfl (le_refl _) (tiles_nil_intro rfl))
        have h2 := tiles_append hout h1
        simpa using h2
      · split
        · -- the aggregate would overflow: emit it, restart at the chunk
          refine coalescePass_tiles cfg tok rest (out ++ [agg]) ⟨k.start, k.stop⟩
            (tok k.start k.stop) len ?_ hin2
          have h1 : tiles agg.stop [(⟨k.start, k.stop⟩ : Span)] k.stop = true :=
            tiles_cons_intro hks (by dsimp only; omega) (tiles_nil_intro rfl)
          have h2 := tiles_append hout h1
          simpa using h2
        · -- extend the aggregate
          obtain ⟨m, hm1, hm2⟩ := @tiles_split _ _ out [agg] hout
          obtain ⟨hstart, hle, hrest⟩ := tiles_cons_elim hm2
          have hext : tiles 0 (out ++ [(⟨agg.start, k.stop⟩ : Span)]) k.stop = true := by
            refine tiles_append hm1 ?_
            exact tiles_cons_intro hstart (by dsimp only; omega) (tiles_nil_intro rfl)
          split
          · -- aggregate now above the coalesce threshold: emit, reset empty
            refine coalescePass_tiles cfg tok rest (out ++ [⟨agg.start, k.stop⟩])
              ⟨k.stop, k.stop⟩ 0 len ?_ hin2
            have h1 : tiles k.stop [(⟨k.stop, k.stop⟩ : Span)] k.stop = true :=
              tiles_cons_intro rfl (le_refl _) (tiles_nil_intro rfl)
            have h2 := tiles_append hext h1
            simpa using h2
          · exact coalescePass_tiles cfg tok rest out ⟨agg.start, k.stop⟩
              (aggLen + tok k.start k.stop) len hext hin2

/-! ### Soundness of the Merkle diff walk -/

/-- Every path emitted by `_compare_nodes` points at a file node of the
first tree whose stored hash differs from the hash at the corresponding
position of the second tree (a missing position counting as the empty-hash
sentinel). -/
theorem compareNodes_sound : ∀ (fuel : Nat) (n1 n2 : MNode) (pre p : List String),
    p ∈ compareNodes fuel n1 n2 pre →
    ∃ suffix, p = pre ++ suffix ∧ (lookupSent n1 suffix).is_file = true ∧
      (lookupSent n1 suffix).hash_value ≠ (lookupSent n2 suffix).hash_value
  | 0, _, _, _, _, hmem => absurd hmem (by simp [compareNodes])
  | fuel + 1, n1, n2, pre, p, hmem => by
      rw [compareNodes] at hmem
      split at hmem
      · exact absurd hmem (by simp)
      · rename_i hhash
        split at hmem
        · rename_i hfile
          have hp : p = pre := by simpa using hmem
          exact ⟨[], by simpa [lookupSent] using ⟨hp, hfile, hhash⟩⟩
        · rw [List.mem_flatMap] at hmem
          obtain ⟨name, _, hrec⟩ := hmem
          obtain ⟨suffix, hps, hfile, hdiff⟩ := compareNodes_sound fuel _ _ _ p hrec
          refine ⟨name :: suffix, ?_, ?_, ?_⟩
          · simpa using hps
          · simpa [lookupSent] using hfile
          · simpa [lookupSent] using hdiff

/-! ### The `get_node_hash` walk against the spec-level tree position -/

/-- The stored-tree walk of `get_node_hash` agrees with "the hash stored at
the tree position corresponding to the path" — but only after the
filesystem existence check has passed; a path missing on disk returns
nothing regardless of the stored tree. -/
theorem getNodeHash_eq (fsExists : Bool) (root : MNode) (parts : List String) :
    getNodeHash fsExists root parts =
      if fsExists = true then (treePos root parts).map MNode.hash_value else none := by
  cases fsExists with
  | false => rfl
  | true =>
      simp only [getNodeHash, Bool.false_eq_true, if_false, if_true]
      induction parts generalizing root with
      | nil => rfl
      | cons q qs ih =>
          simp only [nodeHashWalk, treePos]
          cases assocGet root.children q with
          | none => rfl
          | some c => exact ih c

/-! ### The only budget check that survives to the output of Pass 1 -/

/-- C5 (amended): when `enforce_max_chunk_tokens` is on and `chunk_node`
succeeds, the *final residual* chunk (the last span it emits) was checked
against the maximum `M`.  No check is re-run after the gap-filling or
coalescing rewrites, so the returned spans themselves may exceed `M` (see
the counterexample). -/
theorem c5_final_chunk_checked (cfg : SplitCfg) (tok : Nat → Nat → Nat)
    (n : PNode) (l : List Span) (henf : cfg.enforce_max = true)
    (hok : chunk_node cfg tok n = .ok l) :
    ∃ pre current, l = pre ++ [current] ∧
      tok current.start current.stop ≤ cfg.max_chunk_tokens := by
  cases n with
  | node ty s e cs =>
      rw [chunk_node] at hok
      rcases hcc : chunkChildren cfg tok cs [] ⟨s, s⟩ with _ | ⟨chunks, current⟩
      · rw [hcc] at hok; exact absurd hok (by simp)
      · rw [hcc] at hok
        split at hok
        · exact absurd hok (by simp)
        · rename_i chunks2 current2 heq
          injection heq with heq2
          injection heq2 with ha hb
          subst ha; subst hb
          split at hok
          · exact absurd hok (by simp)
          · rename_i hcond
            refine ⟨chunks, current, ?_, ?_⟩
            · injection hok with h; exact h.symm
            · rcases le_or_lt (tok current.start current.stop) cfg.max_chunk_tokens with h | h
              · exact h
              · exact absurd ⟨h, henf⟩ hcond

theorem rankOf_none_of_not_mem {i : String} : ∀ {l : List Hit} (r : Nat),
    i ∉ l.map Hit.id → rankOf r l i = none
  | [], _, _ => rfl
  | h :: rest, r, hmem => by
      simp only [List.map_cons, List.mem_cons, not_or] at hmem
      simp [rankOf, Ne.symm hmem.1, rankOf_none_of_not_mem (r + 1) hmem.2]

theorem ranksGet_append (t1 t2 : List (String × RankEntry)) (k : String) :
    ranksGet (t1 ++ t2) k =
      match ranksGet t1 k with
      | some v => some v
      | none => ranksGet t2 k := by
  induction t1 with
  | nil => rfl
  | cons p rest ih =>
      cases p with
      | mk n v =>
          simp only [List.cons_append, ranksGet]
          by_cases h : n = k
          · simp [h]
          · simp [h, ih]

theorem ranksGet_none_iff {tbl : List (String × RankEntry)} {k : String} :
    ranksGet tbl k = none ↔ k ∉ tbl.map Prod.fst := by
  induction tbl with
  | nil => simp [ranksGet]
  | cons p rest ih =>
      cases p with
      | mk n v =>
          by_cases h : n = k
          · subst h; simp [ranksGet]
          · simp [ranksGet, h, ih, Ne.symm h]

theorem ranksSet_fst (tbl : List (String × RankEntry)) (k : String) (f : RankEntry → RankEntry) :
    (ranksSet tbl k f).map Prod.fst = tbl.map Prod.fst := by
  induction tbl with
  | nil => rfl
  | cons p rest ih =>
      cases p with
      | mk n v =>
          by_cases h : n = k
          · simp [ranksSet, h]
          · simp [ranksSet, h, ih]

theorem ranksGet_ranksSet_isSome (tbl : List (String × RankEntry)) (k k' : String)
    (f : RankEntry → RankEntry) :
    (ranksGet (ranksSet tbl k f) k').isSome = (ranksGet tbl k').isSome := by
  induction tbl with
  | nil => rfl
  | cons p rest ih =>
      obtain ⟨n, v⟩ := p
      simp only [ranksSet]
      by_cases h : n = k
      · rw [if_pos h]
        by_cases h' : n = k'
        · simp [ranksGet, h']
        · simp [ranksGet, h']
      · rw [if_neg h]
        by_cases h' : n = k'
        · simp [ranksGet, h']
        · simp [ranksGet, h', ih]

/-- The dense loop over fresh ids appends one entry per hit, ranked in
order. -/
theorem addDense_char : ∀ (d : List Hit) (tbl : List (String × RankEntry)) (r : Nat),
    (∀ h ∈ d, ranksGet tbl h.id = none) → (d.map Hit.id).Nodup →
    addDense tbl r d = tbl ++ denseEntries r d
  | [], tbl, r, _, _ => by simp [addDense, denseEntries]
  | h :: rest, tbl, r, hfresh, hnd => by
      rw [addDense, hfresh h (by simp)]
      have hnd' := hnd
      simp only [List.map_cons, List.nodup_cons] at hnd'
      have hstep : addDense (tbl ++ [(h.id, ⟨h, some r, none⟩)]) (r + 1) rest
          = (tbl ++ [(h.id, ⟨h, some r, none⟩)]) ++ denseEntries (r + 1) rest := by
        refine addDense_char rest _ (r + 1) ?_ hnd'.2
        intro h' hh'
        rw [ranksGet_append, hfresh h' (by simp [hh'])]
        have hne : h'.id ≠ h.id := by
          intro hcontra
          exact hnd'.1 (hcontra ▸ List.mem_map_of_mem Hit.id hh')
        simp [ranksGet, Ne.symm hne]
      rw [hstep, denseEntries, List.append_assoc, List.singleton_append]

theorem denseEntries_fst (r : Nat) (d : List Hit) :
    (denseEntries r d).map Prod.fst = d.map Hit.id := by
  induction d generalizing r with
  | nil => rfl
  | cons h rest ih => simp [denseEntries, ih]

theorem ranksGet_denseEntries_isSome (d : List Hit) (r : Nat) (i : String) :
    (ranksGet (denseEntries r d) i).isSome = (rankOf r d i).isSome := by
  induction d generalizing r with
  | nil => rfl
  | cons h rest ih =>
      by_cases hh : h.id = i <;> simp [denseEntries, ranksGet, rankOf, hh, ih]

theorem sparseUpd_nil (r : Nat) (tbl : List (String × RankEntry)) :
    sparseUpd [] r tbl = tbl := by
  unfold sparseUpd
  simp [rankOf]

/-- When no table entry is keyed by the head hit's id, the sparse pass over
`h :: rest` updates the table exactly as the pass over `rest` does (with
the rank counter advanced). -/
theorem sparseUpd_skip {h : Hit} {rest : List Hit} {r : Nat} :
    ∀ (tbl : List (String × RankEntry)), h.id ∉ tbl.map Prod.fst →
    sparseUpd (h :: rest) r tbl = sparseUpd rest (r + 1) tbl
  | [], _ => rfl
  | (n, e) :: t, hmem => by
      simp only [List.map_cons, List.mem_cons, not_or] at hmem
      simp only [sparseUpd, List.map_cons]
      have hhead : rankOf r (h :: rest) n = rankOf (r + 1) rest n := by
        simp [rankOf, hmem.1]
      rw [hhead]
      have htail := @sparseUpd_skip h rest r t hmem.2
      simp only [sparseUpd] at htail
      rw [htail]

/-- Updating the stored entry of the head hit and then running the sparse
pass on the tail equals running the sparse pass on the whole list (for
duplicate-free tables and a head id absent from the tail). -/
theorem sparseUpd_set {h : Hit} {rest : List Hit} {r : Nat} :
    ∀ (tbl : List (String × RankEntry)), (tbl.map Prod.fst).Nodup →
      h.id ∉ rest.map Hit.id →
      sparseUpd rest (r + 1) (ranksSet tbl h.id (fun e => { e with sparse_rank := some r }))
        = sparseUpd (h :: rest) r tbl
  | [], _, _ => rfl
  | (n, e) :: t, hnd, hrest => by
      simp only [List.map_cons, List.nodup_cons] at hnd
      by_cases hn : n = h.id
      · subst hn
        rw [show ranksSet ((h.id, e) :: t) h.id (fun e => { e with sparse_rank := some r })
              = (h.id, { e with sparse_rank := some r }) :: t from by
            simp [ranksSet]]
        simp only [sparseUpd, List.map_cons]
        rw [rankOf_none_of_not_mem (r + 1) hrest]
        rw [show rankOf r (h :: rest) h.id = some r from by simp [rankOf]]
        have htail := @sparseUpd_skip h rest r t hnd.1
        simp only [sparseUpd] at htail
        rw [htail]
      · rw [show ranksSet ((n, e) :: t) h.id (fun e => { e with sparse_rank := some r })
              = (n, e) :: ranksSet t h.id (fun e => { e with sparse_rank := some r }) from by
            simp [ranksSet, hn]]
        simp only [sparseUpd, List.map_cons]
        rw [show rankOf r (h :: rest) n = rankOf (r + 1) rest n from by
            simp [rankOf, Ne.symm hn]]
        have htail := @sparseUpd_set h rest r t hnd.2 hrest
        simp only [sparseUpd] at htail
        rw [htail]

/-- Tables that agree on which ids are present produce the same appended
entries. -/
theorem sparseNew_congr {tbl tbl' : List (String × RankEntry)} :
    ∀ (s : List Hit) (r : Nat),
      (∀ h ∈ s, (ranksGet tbl' h.id).isSome = (ranksGet tbl h.id).isSome) →
      sparseNew tbl' r s = sparseNew tbl r s
  | [], _, _ => rfl
  | h :: rest, r, hag => by
      have hh := hag h (by simp)
      have hrest : ∀ h' ∈ rest, (ranksGet tbl' h'.id).isSome = (ranksGet tbl h'.id).isSome :=
        fun h' hm => hag h' (by simp [hm])
      simp only [sparseNew, hh]
      by_cases hs : (ranksGet tbl h.id).isSome
      · simp [hs, sparseNew_congr rest (r + 1) hrest]
      · simp [hs, sparseNew_congr rest (r + 1) hrest]

/-- The sparse loop splits into an in-place update of the existing entries
plus appended entries for fresh ids. -/
theorem addSparse_char : ∀ (s : List Hit) (tbl : List (String × RankEntry)) (r : Nat),
    (s.map Hit.id).Nodup → (tbl.map Prod.fst).Nodup →
    addSparse tbl r s = sparseUpd s r tbl ++ sparseNew tbl r s
  | [], tbl, r, _, _ => by simp [addSparse, sparseNew, sparseUpd_nil]
  | h :: rest, tbl, r, hnds, hndt => by
      simp only [List.map_cons, List.nodup_cons] at hnds
      rw [addSparse]
      rcases hget : ranksGet tbl h.id with _ | e
      · -- fresh id: the entry is appended
        have hfresh : h.id ∉ tbl.map Prod.fst := ranksGet_none_iff.mp hget
        have hndt' : ((tbl ++ [(h.id, (⟨h, none, some r⟩ : RankEntry))]).map Prod.fst).Nodup := by
          simpa using List.Nodup.append hndt (by simp) (by simpa using hfresh)
        have hih := addSparse_char rest (tbl ++ [(h.id, (⟨h, none, some r⟩ : RankEntry))]) (r + 1)
          hnds.2 hndt'
        rw [hih]
        have hupd : sparseUpd rest (r + 1) (tbl ++ [(h.id, (⟨h, none, some r⟩ : RankEntry))])
            = sparseUpd rest (r + 1) tbl ++ [(h.id, (⟨h, none, some r⟩ : RankEntry))] := by
          simp only [sparseUpd, List.map_append, List.map_cons, List.map_nil]
          rw [rankOf_none_of_not_mem (r + 1) hnds.1]
        have hnew : sparseNew (tbl ++ [(h.id, (⟨h, none, some r⟩ : RankEntry))]) (r + 1) rest
            = sparseNew tbl (r + 1) rest := by
          refine sparseNew_congr rest (r + 1) ?_
          intro h' hm
          rw [ranksGet_append]
          have hne : h'.id ≠ h.id := by
            intro hc
            exact hnds.1 (hc ▸ List.mem_map_of_mem Hit.id hm)
          rcases ranksGet tbl h'.id with _ | v
          · simp [ranksGet, Ne.symm hne]
          · simp
        rw [hupd, hnew]
        rw [sparseUpd_skip tbl hfresh]
        rw [show sparseNew tbl r (h :: rest)
              = (h.id, (⟨h, none, some r⟩ : RankEntry)) :: sparseNew tbl (r + 1) rest from by
            simp [sparseNew, hget]]
        simp
      · -- id present: the entry's sparse rank is overwritten in place
        have hndt' : ((ranksSet tbl h.id
            (fun e => { e with sparse_rank := some r })).map Prod.fst).Nodup := by
          rw [ranksSet_fst]; exact hndt
        have hih := addSparse_char rest
          (ranksSet tbl h.id (fun e => { e with sparse_rank := some r })) (r + 1)
          hnds.2 hndt'
        rw [hih]
        rw [sparseUpd_set tbl hndt hnds.1]
        have hnew : sparseNew (ranksSet tbl h.id (fun e => { e with sparse_rank := some r }))
            (r + 1) rest = sparseNew tbl (r + 1) rest := by
          refine sparseNew_congr rest (r + 1) ?_
          intro h' _
          exact ranksGet_ranksSet_isSome tbl h.id h'.id _
        rw [hnew]
        rw [show sparseNew tbl r (h :: rest) = sparseNew tbl (r + 1) rest from by
            simp [sparseNew, hget]]

theorem denseEntries_length (r : Nat) (d : List Hit) :
    (denseEntries r d).length = d.length := by
  induction d generalizing r with
  | nil => rfl
  | cons h rest ih => simp [denseEntries, ih]

/-- Each dense-pass entry stores its hit together with that hit's dense
rank (first-occurrence rank, by freedom from duplicates). -/
theorem denseEntries_mem : ∀ (d : List Hit) (r : Nat) (p : String × RankEntry),
    (d.map Hit.id).Nodup → p ∈ denseEntries r d →
    ∃ hit, hit ∈ d ∧ p = (hit.id, ⟨hit, rankOf r d hit.id, none⟩)
  | [], _, _, _, hmem => absurd hmem (by simp [denseEntries])
  | h :: rest, r, p, hnd, hmem => by
      simp only [List.map_cons, List.nodup_cons] at hnd
      rw [denseEntries, List.mem_cons] at hmem
      rcases hmem with hmem | hmem
      · exact ⟨h, by simp, by simp [hmem, rankOf]⟩
      · obtain ⟨hit, hin, hp⟩ := denseEntries_mem rest (r + 1) p hnd.2 hmem
        refine ⟨hit, by simp [hin], ?_⟩
        have hne : h.id ≠ hit.id := by
          intro hc
          exact hnd.1 (hc ▸ List.mem_map_of_mem Hit.id hin)
        rw [hp]
        simp [rankOf, hne]

/-- Each sparse-appended entry stores a sparse-only hit with its sparse
rank. -/
theorem sparseNew_mem : ∀ (s : List Hit) (tbl : List (String × RankEntry)) (r : Nat)
    (p : String × RankEntry),
    (s.map Hit.id).Nodup → p ∈ sparseNew tbl r s →
    ∃ hit, hit ∈ s ∧ ranksGet tbl hit.id = none ∧
      p = (hit.id, ⟨hit, none, rankOf r s hit.id⟩)
  | [], _, _, _, _, hmem => absurd hmem (by simp [sparseNew])
  | h :: rest, tbl, r, p, hnd, hmem => by
      simp only [List.map_cons, List.nodup_cons] at hnd
      rw [sparseNew] at hmem
      have hne : ∀ hit ∈ rest, h.id ≠ hit.id := by
        intro hit hin hc
        exact hnd.1 (hc ▸ List.mem_map_of_mem Hit.id hin)
      by_cases hg : (ranksGet tbl h.id).isSome
      · rw [if_pos hg] at hmem
        obtain ⟨hit, hin, hget, hp⟩ := sparseNew_mem rest tbl (r + 1) p hnd.2 hmem
        refine ⟨hit, by simp [hin], hget, ?_⟩
        rw [hp]; simp [rankOf, hne hit hin]
      · rw [if_neg hg] at hmem
        rw [List.mem_cons] at hmem
        rcases hmem with hmem | hmem
        · refine ⟨h, by simp, ?_, by simp [hmem, rankOf]⟩
          cases hgv : ranksGet tbl h.id with
          | none => rfl
          | some v => simp at hg; rw [hgv] at hg; exact hg
        · obtain ⟨hit, hin, hget, hp⟩ := sparseNew_mem rest tbl (r + 1) p hnd.2 hmem
          refine ⟨hit, by simp [hin], hget, ?_⟩
          rw [hp]; simp [rankOf, hne hit hin]

theorem sparseNew_length : ∀ (s : List Hit) (tbl : List (String × RankEntry)) (r : Nat),
    (sparseNew tbl r s).length = (s.filter (fun h => !(ranksGet tbl h.id).isSome)).length
  | [], _, _ => rfl
  | h :: rest, tbl, r => by
      rw [sparseNew]
      by_cases hg : (ranksGet tbl h.id).isSome
      · rw [if_pos hg]
        have hne : ¬(ranksGet tbl h.id = none) := by
          intro hc; rw [hc] at hg; exact absurd hg (by simp)
        simp [List.filter_cons, Option.isNone_iff_eq_none, hne,
          sparseNew_length rest tbl (r + 1)]
      · rw [if_neg hg]
        have heq : ranksGet tbl h.id = none := by
          cases hv : ranksGet tbl h.id
          · rfl
          · simp at hg; rw [hv] at hg; exact hg
        simp [List.filter_cons, Option.isNone_iff_eq_none, heq,
          sparseNew_length rest tbl (r + 1)]

theorem combine_results_char (dense sparse : List Hit)
    (hd : (dense.map Hit.id).Nodup) (hs : (sparse.map Hit.id).Nodup) :
    (combine_results dense sparse).length
        = dense.length + (sparse.filter (fun h => (rankOf 1 dense h.id).isNone)).length ∧
      List.Pairwise (fun x y => y.2 ≤ x.2) (combine_results dense sparse) ∧
      ∀ x ∈ combine_results dense sparse, ∃ hit, (hit ∈ dense ∨ hit ∈ sparse) ∧
        x = (hit, rrfTerm 60 (rankOf 1 dense hit.id) + rrfTerm 60 (rankOf 1 sparse hit.id)) := by
  have hD : addDense [] 1 dense = denseEntries 1 dense := by
    have := addDense_char dense [] 1 (fun _ _ => rfl) hd
    simpa using this
  have hDnd : ((denseEntries 1 dense).map Prod.fst).Nodup := by
    rw [denseEntries_fst]; exact hd
  have hperm : combine_results dense sparse =
      ((sparseUpd sparse 1 (denseEntries 1 dense)
        ++ sparseNew (denseEntries 1 dense) 1 sparse).map
          (fun p => (p.2.result, rrfScore 60 p.2))).insertionSort (fun a b => b.2 ≤ a.2) := by
    unfold combine_results
    rw [hD, addSparse_char sparse (denseEntries 1 dense) 1 hs hDnd]
  refine ⟨?_, ?_, ?_⟩
  · rw [hperm, (List.perm_insertionSort _ _).length_eq, List.length_map, List.length_append]
    rw [show (sparseUpd sparse 1 (denseEntries 1 dense)).length = dense.length from by
      unfold sparseUpd; rw [List.length_map, denseEntries_length]]
    rw [sparseNew_length]
    congr 1
    refine congrArg List.length (List.filter_congr ?_)
    intro h _
    rw [ranksGet_denseEntries_isSome]
    cases rankOf 1 dense h.id <;> rfl
  · rw [hperm]
    haveI instTotal : IsTotal (Hit × ℚ) (fun a b => b.2 ≤ a.2) := ⟨fun a b => le_total b.2 a.2⟩
    haveI instTrans : IsTrans (Hit × ℚ) (fun a b => b.2 ≤ a.2) :=
      ⟨fun a b c hab hbc => le_trans hbc hab⟩
    have := List.sorted_insertionSort (fun (a b : Hit × ℚ) => b.2 ≤ a.2)
      ((sparseUpd sparse 1 (denseEntries 1 dense)
        ++ sparseNew (denseEntries 1 dense) 1 sparse).map
          (fun p => (p.2.result, rrfScore 60 p.2)))
    simpa [List.Sorted] using this
  · intro x hx
    rw [hperm, (List.perm_insertionSort _ _).mem_iff, List.mem_map] at hx
    obtain ⟨p, hp, hxp⟩ := hx
    rw [List.mem_append] at hp
    rcases hp with hp | hp
    · unfold sparseUpd at hp
      rw [List.mem_map] at hp
      obtain ⟨q, hq, hpq⟩ := hp
      obtain ⟨hit, hhit, hqe⟩ := denseEntries_mem dense 1 q hd hq
      refine ⟨hit, Or.inl hhit, ?_⟩
      subst hxp
      rw [hqe] at hpq
      cases hsr : rankOf 1 sparse hit.id with
      | some rk =>
          rw [hsr] at hpq
          rw [← hpq]
          simp [rrfScore, hsr]
      | none =>
          rw [hsr] at hpq
          rw [← hpq]
          simp [rrfScore, hsr]
    · obtain ⟨hit, hhit, hget, hpe⟩ := sparseNew_mem sparse (denseEntries 1 dense) 1 p hs hp
      refine ⟨hit, Or.inr hhit, ?_⟩
      have hdr : rankOf 1 dense hit.id = none := by
        have hiso := ranksGet_denseEntries_isSome dense 1 hit.id
        rw [hget] at hiso
        cases hrv : rankOf 1 dense hit.id with
        | none => rfl
        | some v => rw [hrv] at hiso; simp at hiso
      subst hxp
      rw [hpe]
      simp [rrfScore, hdr]

/-- C9: a qualifying event adds its path to the pending set and flushes
exactly when no debounce timer is active or the delay has elapsed since
the last flush; consequently three modify events on the same path within
200 ms invoke the per-file update exactly once (the first flushes
immediately since no timer is active yet, the other two only join the
pending set). -/
theorem c9_debounce_coalesces (p ext : String) (t1 t2 t3 : ℚ)
    (hp : should_process_file ext = true)
    (h12 : t1 ≤ t2) (h23 : t2 ≤ t3) (hwin : t3 - t1 ≤ 1 / 5) :
    ((runModifyEvents initialWatcherState
        [(t1, p, ext), (t2, p, ext), (t3, p, ext)]).2).count p = 1 := by
  have h2lt : ¬(t2 - t1 ≥ debounce_delay) := by
    rw [debounce_delay]
    intro hge
    have : t2 ≤ t3 := h23
    linarith
  have h3lt : ¬(t3 - t1 ≥ debounce_delay) := by
    rw [debounce_delay]
    intro hge
    linarith
  simp [runModifyEvents, on_modified, hp, schedule_update, initialWatcherState,
    pendingAdd, h2lt, h3lt]

/-- C10: if the chunking step raises inside `update_index` on an existing,
recognized file, the store delete and upsert were not yet issued (the
vector store is completely untouched), but the Merkle tree was already
rewritten with the file's fresh hash before the failure, and the exception
propagates — so the tree and the store can disagree about the file. -/
theorem c10_update_index_atomicity (st : IndexState) (ext : String) (parts : List String)
    (rel content : String)
    (split : String → Except Unit (List (String × ChunkMetadata)))
    (hext : extRecognized ext = true)
    (hsplit : split content = .error ()) :
    (update_index st true ext parts rel content split).1.store = st.store ∧
      (update_index st true ext parts rel content split).1.tree
        = updateFileNode st.tree parts (fileHash content) ∧
      (update_index st true ext parts rel content split).2 = some () := by
  unfold update_index
  simp [hext, hsplit]

/-- On the multi-chunk path, `chunk_tree` returns the decorated coalesced
gap-filled chunks. -/
theorem chunk_tree_multi (cfg : SplitCfg) (tok : Nat → Nat → Nat) (source : List Char)
    (root : PNode) (raw : List Span) (a b : Span) (rest : List Span)
    (hok : chunk_node cfg tok root = .ok raw)
    (hf : raw.filter (fun c => c.size > 0) = a :: b :: rest) :
    chunk_tree cfg tok source root
      = .ok ((coalescePass cfg tok (gapFill (a :: b :: rest) source.length) [] ⟨0, 0⟩ 0).map
          (decorate cfg source root)) := by
  unfold chunk_tree
  rw [hok]
  simp only [hf]

/-- C1 (amended): for a well-formed parse tree over the buffer, when at
least two non-empty chunks remain after Pass 1, the spans returned by
`chunk_tree`, with empty residual spans filtered out, cover `[0, |buffer|)`
exactly, with no gaps and no overlaps.  (The sole-chunk early return does
not preserve this: see the counterexample.) -/
theorem c1_partition_multi_chunk (cfg : SplitCfg) (tok : Nat → Nat → Nat)
    (source : List Char) (root : PNode) (raw : List Span) (out : List (Span × ChunkMetadata))
    (hwf : wfNode root = true) (hroot : root.endB ≤ source.length)
    (hok : chunk_node cfg tok root = .ok raw)
    (hmulti : 2 ≤ (raw.filter (fun c => c.size > 0)).length)
    (hout : chunk_tree cfg tok source root = .ok out) :
    tiles 0 ((out.map (fun q => q.1)).filter (fun c => c.size > 0)) source.length = true := by
  have hchain : chainB root.startB raw root.endB = true :=
    chunk_node_chain cfg tok root hwf raw hok
  have hchain0 : chainB 0 raw source.length = true :=
    chainB_mono_right (chainB_mono_left hchain (Nat.zero_le _)) hroot
  have hchainf : chainB 0 (raw.filter (fun c => c.size > 0)) source.length = true :=
    chainB_filter hchain0
  rcases hf : raw.filter (fun c => c.size > 0) with _ | ⟨a, _ | ⟨b, rest⟩⟩
  · rw [hf] at hmulti; simp at hmulti
  · rw [hf] at hmulti; simp at hmulti
  · rw [chunk_tree_multi cfg tok source root raw a b rest hok hf] at hout
    have hout' : out = (coalescePass cfg tok (gapFill (a :: b :: rest) source.length)
        [] ⟨0, 0⟩ 0).map (decorate cfg source root) := by
      injection hout with h; exact h.symm
    have hspans : out.map (fun q => q.1)
        = coalescePass cfg tok (gapFill (a :: b :: rest) source.length) [] ⟨0, 0⟩ 0 := by
      rw [hout', List.map_map]
      have : (fun q : Span × ChunkMetadata => q.1) ∘ decorate cfg source root = id := by
        funext c; rfl
      rw [this, List.map_id]
    rw [hspans]
    rw [hf] at hchainf
    have hfilled : tiles 0 (gapFill (a :: b :: rest) source.length) source.length = true :=
      gapFill_tiles (by simp) hchainf
    refine coalescePass_tiles cfg tok (gapFill (a :: b :: rest) source.length) [] ⟨0, 0⟩ 0
      source.length ?_ ?_
    · exact tiles_cons_intro rfl (le_refl _) (tiles_nil_intro rfl)
    · exact hfilled

/-! ### Claim theorems, counterexamples and witnesses -/

/-- C1 (counterexample): on the buffer `import os\nimport sys\n` (21
bytes), exactly one non-empty chunk remains after Pass 1, and the sole
returned span is `[0, 20)` — `Span(0, len(chunks[0]))` — which does not
cover `[0, 21)`: the partition property fails in precisely the single-chunk
case the claim singles out. -/
theorem c1_single_chunk_no_partition :
    chunk_tree (defaultCfg "python") lenTok importSrc importTree = .ok [(⟨0, 20⟩, mdSole)] ∧
    importSrc.length = 21 ∧
    tiles 0 ([({ start := 0, stop := 20 } : Span)].filter (fun c => c.size > 0))
      importSrc.length = false := by
  refine ⟨by decide, by decide, by decide⟩

/-- C1 (witness): a two-statement fixture with two non-empty Pass 1 chunks;
the returned spans `[0,3), [3,6)` tile the 6-byte buffer exactly. -/
theorem c1_partition_multi_chunk_witness :
    wfNode treeC1 = true ∧ treeC1.endB ≤ srcC1.length ∧
    chunk_node cfgC1 lenTok treeC1 = .ok [⟨0, 2⟩, ⟨3, 5⟩] ∧
    2 ≤ ([(⟨0, 2⟩ : Span), ⟨3, 5⟩].filter (fun c => c.size > 0)).length ∧
    chunk_tree cfgC1 lenTok srcC1 treeC1 = .ok outC1 ∧
    tiles 0 ((outC1.map (fun q => q.1)).filter (fun c => c.size > 0)) srcC1.length = true :=
  ⟨by decide, by decide, by decide, by decide, by decide,
    c1_partition_multi_chunk cfgC1 lenTok srcC1 treeC1 [⟨0, 2⟩, ⟨3, 5⟩] outC1
      (by decide) (by decide) (by decide) (by decide) (by decide)⟩

/-- C2 (failing input): build over `{f.py ↦ "a"}`, mutate `f.py` to `"b"`,
call `update_file`.  The leaf hash is refreshed, but the root's stored hash
is untouched (`_update_parent_hashes` recomputes only the nodes it descends
*into*, and for a top-level file it descends into none), so it still equals
the old build's root hash and differs from a fresh build over the mutated
directory — incremental equivalence fails. -/
theorem c2_update_file_stale_root :
    (updateFileNode (buildNode fsA) ["f.py"] (fileHash "b")).hash_value
        = (buildNode fsA).hash_value ∧
    (updateFileNode (buildNode fsA) ["f.py"] (fileHash "b")).hash_value
        ≠ (buildNode fsB).hash_value ∧
    (treePos (updateFileNode (buildNode fsA) ["f.py"] (fileHash "b")) ["f.py"]).map
        MNode.hash_value = some (fileHash "b") := by
  refine ⟨by decide, by decide, by decide⟩

/-- C3 (counterexample): a file present only in the *other* tree is never
reported — `_compare_nodes` records a path only when the *self*-side node
is a file, and the sentinel standing in for the missing self-side node is
a childless non-file, so the recursion bottoms out silently. -/
theorem c3_added_file_not_reported :
    getChanges (buildNode (FS.dir [])) (buildNode fsB) = [] ∧
    (lookupSent (buildNode fsB) ["f.py"]).is_file = true ∧
    (treePos (buildNode (FS.dir [])) ["f.py"]).isNone = true := by
  refine ⟨by decide, by decide, by decide⟩

/-- C3 (amended): `get_changes` is sound but one-sided — every reported
path points at a file node of the first tree whose stored hash differs
from the hash at the corresponding position of the second tree (a missing
position counting as the empty-hash sentinel); files present only in the
second tree are never reported, and differing files can be missed when
ancestor directory hashes coincide (the directory hash ignores names). -/
theorem c3_diff_soundness (a b : MNode) (p : List String) (hp : p ∈ getChanges a b) :
    (lookupSent a p).is_file = true ∧
      (lookupSent a p).hash_value ≠ (lookupSent b p).hash_value := by
  obtain ⟨suffix, hps, hf, hd⟩ := compareNodes_sound (mdepth a + mdepth b) a b [] p hp
  rw [List.nil_append] at hps
  subst hps
  exact ⟨hf, hd⟩

/-- C3 (witness): a genuinely changed file is reported and satisfies the
soundness conclusion. -/
theorem c3_diff_soundness_witness :
    (["f.py"] ∈ getChanges (buildNode fsA) (buildNode fsB)) ∧
    ((lookupSent (buildNode fsA) ["f.py"]).is_file = true ∧
      (lookupSent (buildNode fsA) ["f.py"]).hash_value
        ≠ (lookupSent (buildNode fsB) ["f.py"]).hash_value) :=
  ⟨by decide, c3_diff_soundness (buildNode fsA) (buildNode fsB) ["f.py"] (by decide)⟩

/-- C4 (counterexample): with `limit = 1` and disjoint single-hit ANN
responses, `search` returns two fused results — the source sorts the fused
list but never truncates it to the top `k`. -/
theorem c4_output_exceeds_limit :
    (searchModel 1 [⟨"a", "pa", none⟩] [⟨"b", "pb", none⟩]).length = 2 := by
  obtain ⟨hlen, _, _⟩ := combine_results_char [⟨"a", "pa", none⟩] [⟨"b", "pb", none⟩]
    (by decide) (by decide)
  unfold searchModel
  rw [List.length_map, hlen]
  decide

/-- C4 (amended): for duplicate-free ANN responses, `search` scores every
point id seen in either list as `1/(60 + r_dense) + 1/(60 + r_sparse)`
with a zero term for the unseen side (`1/(60 + inf)`), sorts descending by
that score, and returns *all* fused results — one per distinct id, which
can exceed the requested `limit`; no truncation to the top `k` happens. -/
theorem c4_rrf_fusion_no_truncation (limit : Nat) (dense sparse : List Hit)
    (hd : (dense.map Hit.id).Nodup) (hs : (sparse.map Hit.id).Nodup) :
    (searchModel limit dense sparse).length
        = dense.length + (sparse.filter (fun h => (rankOf 1 dense h.id).isNone)).length ∧
      List.Pairwise (fun x y => y.2.1 ≤ x.2.1) (searchModel limit dense sparse) ∧
      ∀ x ∈ searchModel limit dense sparse, ∃ hit, (hit ∈ dense ∨ hit ∈ sparse) ∧
        x = (hit.path, rrfTerm 60 (rankOf 1 dense hit.id) + rrfTerm 60 (rankOf 1 sparse hit.id),
             hit.hashv) := by
  obtain ⟨hlen, hsort, hmem⟩ := combine_results_char dense sparse hd hs
  refine ⟨?_, ?_, ?_⟩
  · unfold searchModel
    rw [List.length_map]
    exact hlen
  · unfold searchModel
    exact List.Pairwise.map _ (fun a b hab => hab) hsort
  · intro x hx
    unfold searchModel at hx
    rw [List.mem_map] at hx
    obtain ⟨y, hy, hxy⟩ := hx
    obtain ⟨hit, hor, hye⟩ := hmem y hy
    exact ⟨hit, hor, by rw [← hxy, hye]⟩

/-- C4 (witness): two overlapping two-hit responses. -/
theorem c4_rrf_fusion_no_truncation_witness :
    (([⟨"a", "pa", none⟩, ⟨"b", "pb", none⟩] : List Hit).map Hit.id).Nodup ∧
    (([⟨"b", "pb", none⟩, ⟨"c", "pc", none⟩] : List Hit).map Hit.id).Nodup ∧
    ((searchModel 2 [⟨"a", "pa", none⟩, ⟨"b", "pb", none⟩]
        [⟨"b", "pb", none⟩, ⟨"c", "pc", none⟩]).length
        = ([⟨"a", "pa", none⟩, ⟨"b", "pb", none⟩] : List Hit).length
          + (([⟨"b", "pb", none⟩, ⟨"c", "pc", none⟩] : List Hit).filter
              (fun h => (rankOf 1 [⟨"a", "pa", none⟩, ⟨"b", "pb", none⟩] h.id).isNone)).length ∧
      List.Pairwise (fun x y => y.2.1 ≤ x.2.1)
        (searchModel 2 [⟨"a", "pa", none⟩, ⟨"b", "pb", none⟩]
          [⟨"b", "pb", none⟩, ⟨"c", "pc", none⟩]) ∧
      ∀ x ∈ searchModel 2 [⟨"a", "pa", none⟩, ⟨"b", "pb", none⟩]
          [⟨"b", "pb", none⟩, ⟨"c", "pc", none⟩],
        ∃ hit, (hit ∈ ([⟨"a", "pa", none⟩, ⟨"b", "pb", none⟩] : List Hit)
            ∨ hit ∈ ([⟨"b", "pb", none⟩, ⟨"c", "pc", none⟩] : List Hit)) ∧
          x = (hit.path,
            rrfTerm 60 (rankOf 1 [⟨"a", "pa", none⟩, ⟨"b", "pb", none⟩] hit.id)
              + rrfTerm 60 (rankOf 1 [⟨"b", "pb", none⟩, ⟨"c", "pc", none⟩] hit.id),
            hit.hashv)) :=
  ⟨by decide, by decide,
    c4_rrf_fusion_no_truncation 2 [⟨"a", "pa", none⟩, ⟨"b", "pb", none⟩]
      [⟨"b", "pb", none⟩, ⟨"c", "pc", none⟩] (by decide) (by decide)⟩

/-- C5 (counterexample): with enforcement on (`M = 5`), the chunker returns
successfully, yet a returned span — rewritten by the gap-filling pass to
absorb a 98-byte gap that belongs to no AST child — counts 100 tokens,
far above `M`.  The budget checks run only on Pass 1 quantities. -/
theorem c5_chunk_over_budget_returned :
    cfgC5.enforce_max = true ∧
    ((chunk_tree cfgC5 lenTok srcC5 treeC5).toOption.map
      (fun l => l.any (fun q => decide (lenTok q.1.start q.1.stop > cfgC5.max_chunk_tokens))))
      = some true := by
  refine ⟨rfl, by decide⟩

/-- C5 (witness): on the same fixture the final residual chunk of Pass 1
obeys the bound. -/
theorem c5_final_chunk_checked_witness :
    cfgC5.enforce_max = true ∧
    chunk_node cfgC5 lenTok treeC5 = .ok [⟨0, 2⟩, ⟨100, 102⟩] ∧
    (∃ pre current, [(⟨0, 2⟩ : Span), ⟨100, 102⟩] = pre ++ [current] ∧
      lenTok current.start current.stop ≤ cfgC5.max_chunk_tokens) :=
  ⟨rfl, by decide,
    c5_final_chunk_checked cfgC5 lenTok treeC5 [⟨0, 2⟩, ⟨100, 102⟩] rfl (by decide)⟩

/-- C6 (counterexample): on the file `import os\nimport sys\n` the chunker
takes the sole-chunk early return, whose metadata is the constant
`ChunkMetadata(0, 1, language)` — its `imports` list is empty, not
`["import os", "import sys"]`; Pass 4 extraction never runs. -/
theorem c6_sole_chunk_imports_empty :
    ((chunk_tree (defaultCfg "python") lenTok importSrc importTree).toOption.map
      (fun l => l.map (fun q => q.2.imports))) ≠ some [["import os", "import sys"]] := by
  decide

/-- C6 (amended): the sole chunk returned for `import os\nimport sys\n`
carries metadata `(start_line 0, end_line 1, "python")` with *empty*
symbols and imports, and spans `[0, 20)` — `Span(0, len(chunk))`. -/
theorem c6_sole_chunk_metadata :
    chunk_tree (defaultCfg "python") lenTok importSrc importTree = .ok [(⟨0, 20⟩, mdSole)] := by
  decide

/-- C7: two builds over identical directory contents — the enumeration
order of every directory's entries being the only difference — produce the
same root hash, because each directory hash is a digest of its children's
hashes sorted. -/
theorem c7_build_determinism {t t' : FS} (h : FSReorder t t') :
    (buildNode t).hash_value = (buildNode t').hash_value :=
  fsReorder_hash h

/-- C7 (witness): the same two-file directory listed in opposite orders. -/
theorem c7_build_determinism_witness :
    FSReorder fsOrd1 fsOrd2 ∧ (buildNode fsOrd1).hash_value = (buildNode fsOrd2).hash_value := by
  have h : FSReorder fsOrd1 fsOrd2 := by
    refine ⟨[("a", FS.file "x"), ("b", FS.file "y")], ?_, ?_⟩
    · exact ⟨rfl, rfl, rfl, rfl, trivial⟩
    · exact List.Perm.swap _ _ _
  exact ⟨h, c7_build_determinism h⟩

/-- C8 (counterexample): a position that exists in the stored tree yields
nothing when the path has disappeared from the filesystem —
`get_node_hash` consults `os.path.exists` first, so its result does depend
on the current filesystem state, not only on the stored tree. -/
theorem c8_ignores_tree_when_file_missing :
    getNodeHash false (buildNode fsB) ["f.py"] = none ∧
    (treePos (buildNode fsB) ["f.py"]).map MNode.hash_value = some (fileHash "b") := by
  refine ⟨rfl, by decide⟩

/-- C8 (amended): `get_node_hash` returns the hash stored at the tree
position corresponding to the path *provided the path exists on the
current filesystem*, and returns nothing when the position is absent from
the tree or the path is absent on disk. -/
theorem c8_get_node_hash_contract (fsExists : Bool) (root : MNode) (parts : List String) :
    getNodeHash fsExists root parts
      = if fsExists = true then (treePos root parts).map MNode.hash_value else none :=
  getNodeHash_eq fsExists root parts

/-- C9 (witness): three modify events on `m.py` at 0 ms, 100 ms and 200 ms. -/
theorem c9_debounce_coalesces_witness :
    should_process_file ".py" = true ∧ (0 : ℚ) ≤ 1 / 10 ∧ (1 / 10 : ℚ) ≤ 1 / 5 ∧
    ((1 / 5 : ℚ) - 0 ≤ 1 / 5) ∧
    ((runModifyEvents initialWatcherState
        [(0, "m.py", ".py"), (1 / 10, "m.py", ".py"), (1 / 5, "m.py", ".py")]).2).count "m.py"
      = 1 :=
  ⟨by decide, by norm_num, by norm_num, by norm_num,
    c9_debounce_coalesces "m.py" ".py" 0 (1 / 10) (1 / 5) (by decide) (by norm_num)
      (by norm_num) (by norm_num)⟩

/-- C10 (witness): a concrete state, a recognized existing file and an
always-raising chunker. -/
theorem c10_update_index_atomicity_witness :
    extRecognized ".py" = true ∧ failSplit "b" = .error () ∧
    ((update_index stC10 true ".py" ["f.py"] "f.py" "b" failSplit).1.store = stC10.store ∧
      (update_index stC10 true ".py" ["f.py"] "f.py" "b" failSplit).1.tree
        = updateFileNode stC10.tree ["f.py"] (fileHash "b") ∧
      (update_index stC10 true ".py" ["f.py"] "f.py" "b" failSplit).2 = some ()) :=
  ⟨by decide, rfl,
    c10_update_index_atomicity stC10 ".py" ["f.py"] "f.py" "b" failSplit (by decide) rfl⟩
